import Mathlib

/-!
# Verification of the CoCreate-cron-jobs scheduler core

This development gives a shallow embedding of the `CoCreateCronJobs` class
(`src/index.js`, and the earlier variant of the same file) and proves or
refutes the specification's claims about it.

Modelling conventions:
* Instants are civil UTC date-times (`DateTime`); the code runs `new Date()`
  arithmetic in epoch milliseconds, which we recover through `toMs`.  The
  embedding models the `UTC` timezone (the source's default for
  `toLocaleString` lookups); no claim depends on another timezone.
* JavaScript `while` loops with no syntactic bound are embedded with an
  explicit `fuel` argument; a result of `none` at every fuel means the source
  loop never exits.
* The external cron-expression evaluator (`cronParser.parseExpression(...)
  .next()`) is a black-box collaborator and enters the embedding as a function
  parameter `cronNext : String → DateTime → DateTime`.
* Schedule fields that the source consumes as strings (`time`, `skipDates`,
  weekday and month names) are stored already parsed: `time` as an
  `(hour, minute, second)` triple, `skipDates` as calendar-date triples,
  weekday names as JavaScript `getDay` numbers (0 = Sunday), month names as
  JavaScript `getMonth` indices (0 = January).  Each of these parses is a
  bijection on well-formed inputs, so `includes` tests are preserved.
-/

/-- A civil UTC date-time, second granularity (the source never uses
milliseconds of the time of day).  `month` is 0-based and `day` 1-based,
matching JavaScript `getMonth`/`getDate`. -/
structure DateTime where
  year : Nat
  month : Nat
  day : Nat
  hour : Nat
  minute : Nat
  second : Nat
deriving DecidableEq, Repr

/-- Gregorian leap-year test, as used by JavaScript `Date` normalization. -/
def isLeap (y : Nat) : Bool :=
  (y % 4 == 0 && y % 100 != 0) || y % 400 == 0

/-- Number of days of month `m` (0-based) in year `y`. -/
def daysInMonth (y m : Nat) : Nat :=
  if m = 1 then (if isLeap y then 29 else 28)
  else if m = 3 ∨ m = 5 ∨ m = 8 ∨ m = 10 then 30
  else 31

/-- JavaScript `d.setDate(d.getDate() + 1)` on a normalized date: step one
calendar day forward, rolling over month and year ends. -/
def addOneDay (d : DateTime) : DateTime :=
  if d.day + 1 ≤ daysInMonth d.year d.month then { d with day := d.day + 1 }
  else if d.month = 11 then { d with year := d.year + 1, month := 0, day := 1 }
  else { d with month := d.month + 1, day := 1 }

/-- JavaScript `d.setMonth(d.getMonth() + 1)`: the month index is incremented
and the date is re-normalized, so a day-of-month that does not exist in the
new month overflows into the following one (e.g. Jan 31 → "Feb 31" → Mar 3). -/
def addOneMonth (d : DateTime) : DateTime :=
  let y := if d.month = 11 then d.year + 1 else d.year
  let m := if d.month = 11 then 0 else d.month + 1
  if d.day ≤ daysInMonth y m then
    { d with year := y, month := m }
  else
    let y2 := if m = 11 then y + 1 else y
    let m2 := if m = 11 then 0 else m + 1
    { d with year := y2, month := m2, day := d.day - daysInMonth y m }

/-- Days contributed by the months of year `y` before month `m` (0-based). -/
def daysBeforeMonth (y m : Nat) : Nat :=
  (List.range m).foldl (fun a i => a + daysInMonth y i) 0

/-- Days elapsed from 0001-01-01 (proleptic Gregorian) to the given date. -/
def epochDay (d : DateTime) : Nat :=
  let y := d.year - 1
  365 * y + y / 4 - y / 100 + y / 400 + daysBeforeMonth d.year d.month + (d.day - 1)

/-- JavaScript `getDay` / the `weekday: 'long'` name, as a number
(0 = Sunday, …, 6 = Saturday).  0001-01-01 proleptic Gregorian is a Monday. -/
def weekday (d : DateTime) : Nat :=
  (epochDay d + 1) % 7

/-- The epoch-style millisecond value of a date-time (offset from year 1
rather than 1970; only differences and comparisons are ever used, exactly as
the source only uses `Date` subtraction and comparison). -/
def toMs (d : DateTime) : Nat :=
  (((epochDay d * 24 + d.hour) * 60 + d.minute) * 60 + d.second) * 1000

/-- The `schedule` sub-document of a cron-job record, with the fields the
source reads: `startTime`, `skipDates`, `daysOfWeek`, `daysOfMonth`,
`months`, `time`, `endTime`, `cronExpression`, `timezone`. -/
structure Schedule where
  startTime : Option DateTime := none
  skipDates : Option (List (Nat × Nat × Nat)) := none
  daysOfWeek : Option (List Nat) := none
  daysOfMonth : Option (List Nat) := none
  months : Option (List Nat) := none
  time : Option (Nat × Nat × Nat) := none
  endTime : Option DateTime := none
  cronExpression : Option String := none
  timezone : Option String := none
deriving DecidableEq, Repr

namespace CronJobs

/-- The `daysOfWeek` loop of `getNextExecutionTime` (src/index.js).  The
source computes the weekday name once, before the loop, and never refreshes
it inside the loop body, so the loop test compares the fixed `dayName`
against the list on every iteration while the candidate advances. -/
def dowLoop (allowed : List Nat) (dayName : Nat) (c : DateTime) : Nat → Option DateTime
  | 0 => none
  | fuel + 1 =>
    if dayName ∈ allowed then some c
    else dowLoop allowed dayName (addOneDay c) fuel

/-- The `daysOfMonth` loop of `getNextExecutionTime` (src/index.js): the loop
test re-reads `currentDateTime.getDate()` on every iteration. -/
def domLoop (allowed : List Nat) (c : DateTime) : Nat → Option DateTime
  | 0 => none
  | fuel + 1 =>
    if c.day ∈ allowed then some c
    else domLoop allowed (addOneDay c) fuel

/-- The `months` loop of `getNextExecutionTime` (src/index.js).  As with
`dowLoop`, the month name is computed once before the loop and never
refreshed inside it. -/
def monthsLoop (allowed : List Nat) (monthName : Nat) (c : DateTime) : Nat → Option DateTime
  | 0 => none
  | fuel + 1 =>
    if monthName ∈ allowed then some c
    else monthsLoop allowed monthName (addOneMonth c) fuel

/-- Steps 1–6 of `getNextExecutionTime` (src/index.js): seed from
`startTime`/now, apply `skipDates`, the three walking loops, then overwrite
the time of day.  `none` means one of the loops ran out of fuel, i.e. the
source function never returns. -/
def resolveCandidate (fuel : Nat) (s : Schedule) (now : DateTime) : Option DateTime :=
  let c0 := match s.startTime with
    | some st => if toMs now < toMs st then st else now
    | none => now
  let c1 := match s.skipDates with
    | some ds => if (c0.year, c0.month, c0.day) ∈ ds then addOneDay c0 else c0
    | none => c0
  match (match s.daysOfWeek with
         | some allowed => dowLoop allowed (weekday c1) c1 fuel
         | none => some c1) with
  | none => none
  | some c2 =>
  match (match s.daysOfMonth with
         | some allowed => domLoop allowed c2 fuel
         | none => some c2) with
  | none => none
  | some c3 =>
  match (match s.months with
         | some allowed => monthsLoop allowed c3.month c3 fuel
         | none => some c3) with
  | none => none
  | some c4 =>
  some (match s.time with
        | some (hh, mm, ss) => { c4 with hour := hh, minute := mm, second := ss }
        | none => c4)

/-- The tail of `getNextExecutionTime` after the `endTime` guard: delegate to
the external cron evaluator when `cronExpression` is present, otherwise
return the candidate. -/
def applyCron (cronNext : String → DateTime → DateTime) (s : Schedule)
    (c : DateTime) : Option (Option DateTime) :=
  match s.cronExpression with
  | some ex => some (some (cronNext ex c))
  | none => some (some c)

/-- `getNextExecutionTime` of src/index.js.  Outer `none` models the source
looping forever; `some none` models the JavaScript `null` return (past
`endTime`); `some (some t)` models returning the instant `t`. -/
def getNextExecutionTime (cronNext : String → DateTime → DateTime) (fuel : Nat)
    (s : Schedule) (now : DateTime) : Option (Option DateTime) :=
  match resolveCandidate fuel s now with
  | none => none
  | some c =>
    match s.endTime with
    | some e =>
      if toMs e < toMs c then some none
      else applyCron cronNext s c
    | none => applyCron cronNext s c

end CronJobs

namespace Legacy

/-!
Translation of `getNextExecutionTime` from the earlier variant of the file
(the unnamed source `part_001`, lines 122–182).  It is translated
independently of the `CronJobs` namespace so that the equivalence claim can
be settled by comparing the two embeddings.
-/

/-- The `daysOfWeek` loop of the legacy `getNextExecutionTime`; the weekday
name is computed once before the loop in this variant too. -/
def dowLoop (allowed : List Nat) (dayName : Nat) (c : DateTime) : Nat → Option DateTime
  | 0 => none
  | fuel + 1 =>
    if dayName ∈ allowed then some c
    else dowLoop allowed dayName (addOneDay c) fuel

/-- The `daysOfMonth` loop of the legacy `getNextExecutionTime`. -/
def domLoop (allowed : List Nat) (c : DateTime) : Nat → Option DateTime
  | 0 => none
  | fuel + 1 =>
    if c.day ∈ allowed then some c
    else domLoop allowed (addOneDay c) fuel

/-- The `months` loop of the legacy `getNextExecutionTime`; the month name is
computed once before the loop. -/
def monthsLoop (allowed : List Nat) (monthName : Nat) (c : DateTime) : Nat → Option DateTime
  | 0 => none
  | fuel + 1 =>
    if monthName ∈ allowed then some c
    else monthsLoop allowed monthName (addOneMonth c) fuel

/-- Steps 1–6 of the legacy `getNextExecutionTime`. -/
def resolveCandidate (fuel : Nat) (s : Schedule) (now : DateTime) : Option DateTime :=
  let c0 := match s.startTime with
    | some st => if toMs now < toMs st then st else now
    | none => now
  let c1 := match s.skipDates with
    | some ds => if (c0.year, c0.month, c0.day) ∈ ds then addOneDay c0 else c0
    | none => c0
  match (match s.daysOfWeek with
         | some allowed => dowLoop allowed (weekday c1) c1 fuel
         | none => some c1) with
  | none => none
  | some c2 =>
  match (match s.daysOfMonth with
         | some allowed => domLoop allowed c2 fuel
         | none => some c2) with
  | none => none
  | some c3 =>
  match (match s.months with
         | some allowed => monthsLoop allowed c3.month c3 fuel
         | none => some c3) with
  | none => none
  | some c4 =>
  some (match s.time with
        | some (hh, mm, ss) => { c4 with hour := hh, minute := mm, second := ss }
        | none => c4)

/-- The cron/fallback tail of the legacy `getNextExecutionTime`. -/
def applyCron (cronNext : String → DateTime → DateTime) (s : Schedule)
    (c : DateTime) : Option (Option DateTime) :=
  match s.cronExpression with
  | some ex => some (some (cronNext ex c))
  | none => some (some c)

/-- The legacy `getNextExecutionTime` (unnamed source `part_001`). -/
def getNextExecutionTime (cronNext : String → DateTime → DateTime) (fuel : Nat)
    (s : Schedule) (now : DateTime) : Option (Option DateTime) :=
  match resolveCandidate fuel s now with
  | none => none
  | some c =>
    match s.endTime with
    | some e =>
      if toMs e < toMs c then some none
      else applyCron cronNext s c
    | none => applyCron cronNext s c

end Legacy

/-!
## The Job Timer Table and its mutators

`this.scheduledJobs` is a plain JavaScript object mapping a job `_id` to the
handle returned by `setTimeout`.  We model it as an association list with
object-key semantics (one binding per key).  Pending (not yet fired, not yet
cleared) timeouts are modelled by `liveTimers`, a list of
`(handle, captured job id)` pairs; `setTimeout` allocates a fresh handle from
`nextHandle`, and `clearTimeout` removes the handle from the pending list.
-/

/-- JavaScript object-key read `m[k]`.  (The stored value models the Node.js
`Timeout` object returned by `setTimeout`, which is always truthy, so
`if (m[k])` is presence of the binding, i.e. `isSome`.) -/
def getKey (m : List (String × Nat)) (k : String) : Option Nat :=
  match m with
  | [] => none
  | (k1, v) :: t => if k = k1 then some v else getKey t k

/-- JavaScript object-key assignment `m[k] = v`: exactly one binding per key
afterwards. -/
def setKey (m : List (String × Nat)) (k : String) (v : Nat) : List (String × Nat) :=
  (k, v) :: m.filter (fun p => p.1 != k)

/-- JavaScript `delete m[k]`. -/
def delKey (m : List (String × Nat)) (k : String) : List (String × Nat) :=
  m.filter (fun p => p.1 != k)

/-- The mutable state of a `CoCreateCronJobs` instance that the claims are
about: the `scheduledJobs` table plus the JavaScript timer runtime (pending
timeouts and a fresh-handle counter). -/
structure TimerState where
  scheduledJobs : List (String × Nat)
  liveTimers : List (Nat × String)
  nextHandle : Nat
deriving DecidableEq, Repr

/-- `scheduleCronJob(object)` of src/index.js, lines 231–255.  The delay is
`new Date(object.nextExecutionTime) - new Date()`; when it is `<= 0` the job
is executed immediately (returned as `some id`) and the table is untouched.
Otherwise the code rebuilds `object` with placeholder
`clusterId/severId/workerId` fields, installs a fresh timeout and assigns its
handle with `this.scheduledJobs[object._id] = setTimeout(...)` — notably
without clearing any handle already stored under that id. -/
def scheduleCronJob (st : TimerState) (id : String) (fireAtMs nowMs : Int) :
    TimerState × Option String :=
  let delay := fireAtMs - nowMs
  if delay ≤ 0 then (st, some id)
  else
    ({ scheduledJobs := setKey st.scheduledJobs id st.nextHandle,
       liveTimers := (st.nextHandle, id) :: st.liveTimers,
       nextHandle := st.nextHandle + 1 }, none)

/-- A pending timeout fires (src/index.js, lines 252–254).  The JavaScript
runtime removes the timeout from the pending set; the installed callback is
`() => this.executeCronJob(object)`, and `executeCronJob` (lines 262–284)
re-reads the record, recomputes `nextExecutionTime` and persists it — it
never deletes `this.scheduledJobs[id]`.  The returned triple is the new
state, the id whose callback ran (if any), and whether the fired id was
still present in `scheduledJobs` at callback entry. -/
def fireTimer (st : TimerState) (h : Nat) : TimerState × Option String × Bool :=
  match st.liveTimers.find? (fun t => t.1 == h) with
  | none => (st, none, false)
  | some (_, id) =>
    let st1 : TimerState :=
      { st with liveTimers := st.liveTimers.filter (fun t => t.1 != h) }
    (st1, some id, (getKey st1.scheduledJobs id).isSome)

/-- A cron-job record as consumed by `handleCrudEvent` and
`pollForCronJobs`: the fields of the persisted document that the source
reads or writes. -/
structure CrudRecord where
  _id : String
  organization_id : String := ""
  active : Option Bool := none
  schedule : Schedule := {}
  nextExecutionTime : Option DateTime := none
  status : String := "pending"
  clusterId : Option String := none
  severId : Option String := none
  workerId : Option String := none
deriving DecidableEq, Repr

/-- The payload of a `crud-event` notification. -/
structure CrudEvent where
  array : String
  method : String
  object : List CrudRecord
deriving DecidableEq, Repr

/-- The record loop of `handleCrudEvent` (src/index.js, lines 116–151),
written over the original record list: the source's
`splice(i, 1); i--; continue` pattern visits each original element exactly
once in order and drops the spliced ones from `data.object`.

The result is `none` when `getNextExecutionTime` never returns (a loop ran
out of fuel at every bound), otherwise
`(final state, surviving records, ids resolution was attempted for,
ids handed to scheduleCronJob)`, with both traces in processing order. -/
def handleCrudLoop (cronNext : String → DateTime → DateTime) (fuel : Nat)
    (method : String) (now : DateTime) :
    List CrudRecord → TimerState →
    Option (TimerState × List CrudRecord × List String × List String)
  | [], st => some (st, [], [], [])
  | r :: rest, st =>
    if method = "object.delete" ∨ r.active = some false then
      let st1 :=
        match getKey st.scheduledJobs r._id with
        | some h =>
          { st with liveTimers := st.liveTimers.filter (fun t => t.1 != h),
                    scheduledJobs := delKey st.scheduledJobs r._id }
        | none => st
      handleCrudLoop cronNext fuel method now rest st1
    else
      match CronJobs.getNextExecutionTime cronNext fuel r.schedule now with
      | none => none
      | some none =>
        match handleCrudLoop cronNext fuel method now rest st with
        | none => none
        | some (st2, recs, res, sch) => some (st2, recs, r._id :: res, sch)
      | some (some t) =>
        if (getKey st.scheduledJobs r._id).isSome then
          match handleCrudLoop cronNext fuel method now rest st with
          | none => none
          | some (st2, recs, res, sch) => some (st2, r :: recs, r._id :: res, sch)
        else
          let timeUntil : Int := (toMs t : Int) - (toMs now : Int)
          let r1 := { r with nextExecutionTime := some t }
          if timeUntil ≤ 5 * 60 * 1000 ∧ 0 < timeUntil then
            let r2 := { r1 with status := "assigned" }
            let st1 := (scheduleCronJob st r2._id (toMs t) (toMs now)).1
            match handleCrudLoop cronNext fuel method now rest st1 with
            | none => none
            | some (st2, recs, res, sch) =>
              some (st2, r2 :: recs, r._id :: res, r._id :: sch)
          else
            match handleCrudLoop cronNext fuel method now rest st with
            | none => none
            | some (st2, recs, res, sch) => some (st2, r1 :: recs, r._id :: res, sch)

/-- `handleCrudEvent(data)` of src/index.js, lines 109–154.  Events whose
`array` is not `'cron-job'` are ignored.  The trailing
`this.updateCronJob(data.object)` call persists the surviving records
through the external CRUD collaborator and does not touch the timer state. -/
def handleCrudEvent (cronNext : String → DateTime → DateTime) (fuel : Nat)
    (ev : CrudEvent) (now : DateTime) (st : TimerState) :
    Option (TimerState × List CrudRecord × List String × List String) :=
  if ev.array ≠ "cron-job" then some (st, ev.object, [], [])
  else handleCrudLoop cronNext fuel ev.method now ev.object st

/-!
## The reconciliation sweep
-/

/-- One element of `data.object` as consumed by the `pollForCronJobs` query
callback (src/index.js, lines 321–344): an organization document whose
`cronJobs` field, when present, holds the organization's cron-job records. -/
structure OrgDoc where
  organization_id : String
  cronJobs : Option (List CrudRecord)
deriving DecidableEq, Repr

/-- The JavaScript relational test `j < cronJobs` from the inner loop header
`for (let j = 0; j < cronJobs; j++)` (src/index.js, line 328), where
`cronJobs` is an **array of record objects**.  JavaScript coerces the array
to a primitive: `[]` becomes `""` hence `0`, and any non-empty array of
objects becomes a string such as `"[object Object]"` hence `NaN`.  A `Nat`
index is therefore never `<` the coerced value (`j < 0` and `j < NaN` are
both false), so the comparison is the constant `false`. -/
def jsLtNumObjArray (_ : Nat) (_ : List CrudRecord) : Bool := false

/-- The inner `for (let j = 0; j < cronJobs; j++)` loop of
`pollForCronJobs` (src/index.js, lines 328–341).  The body stamps
`status = 'assigned'` and the placeholder identity fields, then arms a
timer; `if (this.scheduledJobs[cronJobs[j]._id]) return` aborts the whole
query callback (flagged by the `Bool` component).  The loop header's test is
`jsLtNumObjArray` (see there), so the body is unreachable. -/
def pollInner (st : TimerState) (orgId : String) (nowMs : Int)
    (jobs : List CrudRecord) (j : Nat) : Nat → TimerState × List CrudRecord × Bool
  | 0 => (st, jobs, false)
  | fuel + 1 =>
    if jsLtNumObjArray j jobs then
      match jobs[j]? with
      | none => (st, jobs, false)
      | some job =>
        if (getKey st.scheduledJobs job._id).isSome then (st, jobs, true)
        else
          let job2 := { job with
            status := "assigned", clusterId := some "id",
            severId := some "id", workerId := some "id",
            organization_id := orgId }
          let jobs2 := jobs.set j job2
          let fireMs : Int := match job2.nextExecutionTime with
            | some t => (toMs t : Int)
            | none => 0
          let st2 := (scheduleCronJob st job2._id fireMs nowMs).1
          pollInner st2 orgId nowMs jobs2 (j + 1) fuel
    else (st, jobs, false)

/-- The query callback of `pollForCronJobs` (src/index.js, lines 321–344),
applied to the organizations the backend returned.  `if (!cronJobs) return`
aborts the whole callback when an organization lacks the `cronJobs` field,
and an abort inside the inner loop does the same; otherwise the (possibly
updated) job list is handed to `updateCronJob` (an external persistence
write, collected in the second component) and the next organization is
processed. -/
def pollForCronJobs (st : TimerState) (nowMs : Int) :
    List OrgDoc → TimerState × List (List CrudRecord)
  | [] => (st, [])
  | org :: rest =>
    match org.cronJobs with
    | none => (st, [])
    | some jobs =>
      match pollInner st org.organization_id nowMs jobs 0 (jobs.length + 1) with
      | (st1, _, true) => (st1, [])
      | (st1, jobs1, false) =>
        let tail := pollForCronJobs st1 nowMs rest
        (tail.1, jobs1 :: tail.2)

/-- Stands for the external cron-expression evaluator in concrete
evaluations: `cron-parser`'s `next()` returns an instant strictly after the
seed `currentDate`; stepping one day forward is such an instant (it is the
exact answer for a daily expression seeded at its firing time). -/
def demoCronNext (_ : String) (d : DateTime) : DateTime := addOneDay d

/-!
## Concrete instants and states used by the claim theorems
-/

/-- The empty timer state of a freshly constructed `CoCreateCronJobs`. -/
def stEmpty : TimerState := { scheduledJobs := [], liveTimers := [], nextHandle := 0 }

/-- Tuesday 2024-09-10 10:00:00 UTC. -/
def now0 : DateTime := ⟨2024, 8, 10, 10, 0, 0⟩

/-- A schedule whose `daysOfMonth` list contains only `32`, a value
`getDate()` never takes. -/
def schedDom32 : Schedule := { daysOfMonth := some [32] }

/-- A schedule whose only constraint is a time of day. -/
def onlyTime (hh mm ss : Nat) : Schedule := { time := some (hh, mm, ss) }

/-- The state after arming `"job1"` once from the empty state, one second
before its fire time. -/
def stOneArm : TimerState := (scheduleCronJob stEmpty "job1" 1000 0).1

/-- The state after arming `"job1"` twice in a row from the empty state. -/
def stTwoArms : TimerState := (scheduleCronJob stOneArm "job1" 1000 0).1

/-- An active, already-assigned job two minutes past due, as the
reconciliation query's case (b) returns it. -/
def jobPastDue : CrudRecord :=
  { _id := "j1", active := some true, status := "assigned",
    nextExecutionTime := some ⟨2024, 8, 10, 9, 58, 0⟩ }

/-- An organization document carrying `jobPastDue`. -/
def orgWithJob : OrgDoc := { organization_id := "o1", cronJobs := some [jobPastDue] }

/-- An organization document without a `cronJobs` field. -/
def orgNoJobs : OrgDoc := { organization_id := "o0", cronJobs := none }

/-!
## Claims about the Job Timer Table
-/

/-- C1: the claim states that arming an already-armed id first clears the
existing timer, never leaving two live timers for one job.  The code
(src/index.js line 252) assigns `this.scheduledJobs[object._id] =
setTimeout(...)` without any `clearTimeout` of the handle it overwrites, so
after two `scheduleCronJob` calls for `"job1"` the table holds only the
second handle but **both** timeouts are still pending: the claimed invariant
fails at this input. -/
theorem c1_arm_stacks_two_live_timers :
    (stTwoArms.liveTimers.filter (fun t => t.2 == "job1")).length = 2 ∧
    stTwoArms.scheduledJobs = [("job1", 1)] := by
  constructor <;> rfl

/-- C6: the claim states that when a timer fires, the `scheduledJobs` entry
is removed before the callback runs.  The installed callback
(src/index.js lines 252–254) is `() => this.executeCronJob(object)` and
neither it nor `executeCronJob` ever deletes `this.scheduledJobs[id]`: at
callback entry the id is still armed, and the stale entry survives the
firing. -/
theorem c6_fired_entry_not_removed :
    (fireTimer stOneArm 0).2.2 = true ∧
    getKey (fireTimer stOneArm 0).1.scheduledJobs "job1" = some 0 := by
  constructor <;> rfl

/-- C8: the claim states that every job the reconciliation query returns and
that is not in the timer table is stamped, persisted as `assigned` and
armed, and that one job cannot abort the sweep for the rest.  In the code
(src/index.js lines 322–344) the inner loop header is
`for (let j = 0; j < cronJobs; j++)` where `cronJobs` is the record array
itself, so the test coerces the array to `NaN` and the body never runs: the
two-minutes-past-due job is neither stamped nor armed and the state is
untouched; and an organization without a `cronJobs` field makes the callback
`return`, so the remaining organizations are not processed at all. -/
theorem c8_poll_arms_nothing_and_aborts :
    pollForCronJobs stEmpty (toMs now0 : Int) [orgWithJob] = (stEmpty, [[jobPastDue]]) ∧
    pollForCronJobs stEmpty (toMs now0 : Int) [orgNoJobs, orgWithJob] = (stEmpty, []) := by
  constructor <;> rfl

/-!
## Claims about the Recurrence Resolver
-/

theorem daysInMonth_le_31 (y m : Nat) : daysInMonth y m ≤ 31 := by
  unfold daysInMonth
  repeat' split
  all_goals omega

theorem addOneDay_day_le_31 (d : DateTime) : (addOneDay d).day ≤ 31 := by
  unfold addOneDay
  split
  · next h => simpa using le_trans h (daysInMonth_le_31 d.year d.month)
  · split <;> simp

/-- The `daysOfMonth` walk never exits when the allowed list holds only the
value `32`, which `getDate()` never takes: the loop body always steps to a
day-of-month `≤ 31`. -/
theorem domLoop_32_never_exits (d : DateTime) (hd : d.day ≤ 31) :
    ∀ fuel, CronJobs.domLoop [32] d fuel = none := by
  intro fuel
  induction fuel generalizing d with
  | zero => rfl
  | succ n ih =>
    unfold CronJobs.domLoop
    rw [if_neg (by simp; omega)]
    exact ih (addOneDay d) (addOneDay_day_le_31 d)

/-- C2: the claim states that the day/month advancing loops have an upper
bound on iterations after which the resolver fails with a
`ScheduleUnsatisfiable` condition instead of looping forever.  The source's
loops (src/index.js lines 177–200) carry no bound and no failure path of any
kind: for `daysOfMonth: [32]` the `while` condition is never false, so
`getNextExecutionTime` never returns — at every fuel the embedding reports
non-termination rather than any result. -/
theorem c2_daysOfMonth_walk_never_returns :
    ∀ fuel, CronJobs.getNextExecutionTime demoCronNext fuel schedDom32 now0 = none := by
  intro fuel
  have h := domLoop_32_never_exits now0 (by decide) fuel
  simp [CronJobs.getNextExecutionTime, CronJobs.resolveCandidate, schedDom32, h]

/-- C3, counterexample: with only `time: "02:00:00"` constrained and `now`
at 10:00 the same day, the claim demands an instant strictly in the future;
the code (src/index.js lines 202–206) overwrites the hours of the current
day and returns 02:00 of the same day — an instant strictly before `now`. -/
theorem c3_counterexample_past_instant :
    CronJobs.getNextExecutionTime demoCronNext 1 (onlyTime 2 0 0) now0 =
      some (some ⟨2024, 8, 10, 2, 0, 0⟩) ∧
    toMs ⟨2024, 8, 10, 2, 0, 0⟩ < toMs now0 := by
  constructor
  · rfl
  · decide

/-- C3, amended: for a schedule whose only constraint is `time`,
`getNextExecutionTime` always returns today's date with the hours, minutes
and seconds overwritten to that time — an instant in the future exactly when
`now` is before that time today, and a **past** instant whenever `now` is
already beyond it (the code never advances to the next day). -/
theorem c3_time_only_returns_today_at_time (cronNext : String → DateTime → DateTime)
    (fuel : Nat) (hh mm ss : Nat) (now : DateTime) :
    CronJobs.getNextExecutionTime cronNext fuel (onlyTime hh mm ss) now =
      some (some { now with hour := hh, minute := mm, second := ss }) := rfl

/-- C5: `getNextExecutionTime` is deterministic and side-effect-free.  The
source (src/index.js lines 163–223) reads the wall clock once (`new
Date()`, here the explicit `now` argument), mutates only the local
`currentDateTime`, never writes to `schedule` or to any field of `this`,
and delegates to the external evaluator through a fixed function; its
embedding is therefore a pure function of `(schedule, now)`, and two calls
on identical arguments are identical. -/
theorem c5_deterministic (cronNext : String → DateTime → DateTime) (fuel : Nat)
    (s : Schedule) (now : DateTime) :
    CronJobs.getNextExecutionTime cronNext fuel s now =
      CronJobs.getNextExecutionTime cronNext fuel s now := rfl

/-- A schedule with a cron expression and an end boundary of
2024-09-09 00:00 UTC. -/
def schedCronEnd : Schedule :=
  { cronExpression := some "0 2 * * *", endTime := some ⟨2024, 8, 9, 0, 0, 0⟩ }

/-- A schedule with only an end boundary of 2024-09-09 00:00 UTC. -/
def schedEndOnly : Schedule := { endTime := some ⟨2024, 8, 9, 0, 0, 0⟩ }

/-- C4, counterexample: the claim states that a non-Exhausted result never
exceeds the end boundary even when it comes from the cron evaluator.  The
code (src/index.js lines 208–220) checks `endTime` against the pre-cron
candidate only and returns the evaluator's instant unchecked: seeded at
2024-09-08 10:00 with `endTime` 2024-09-09 00:00, the returned instant
2024-09-09 10:00 exceeds the boundary. -/
theorem c4_counterexample_cron_exceeds_end :
    CronJobs.getNextExecutionTime demoCronNext 1 schedCronEnd ⟨2024, 8, 8, 10, 0, 0⟩ =
      some (some ⟨2024, 8, 9, 10, 0, 0⟩) ∧
    toMs ⟨2024, 8, 9, 0, 0, 0⟩ < toMs ⟨2024, 8, 9, 10, 0, 0⟩ := by
  constructor
  · rfl
  · decide

/-- C4, amended: when `endTime` is set and **no** `cronExpression` is
present, any non-Exhausted instant `getNextExecutionTime` returns never
exceeds the boundary; when a `cronExpression` is present the evaluator's
result is returned without re-checking `endTime` and may exceed it. -/
theorem c4_no_cron_respects_endTime (cronNext : String → DateTime → DateTime)
    (fuel : Nat) (s : Schedule) (now : DateTime) (e t : DateTime)
    (hc : s.cronExpression = none) (he : s.endTime = some e)
    (hr : CronJobs.getNextExecutionTime cronNext fuel s now = some (some t)) :
    toMs t ≤ toMs e := by
  unfold CronJobs.getNextExecutionTime at hr
  rcases hcand : CronJobs.resolveCandidate fuel s now with _ | c
  · rw [hcand] at hr; exact absurd hr (by simp)
  · rw [hcand, he] at hr
    dsimp only at hr
    by_cases hlt : toMs e < toMs c
    · rw [if_pos hlt] at hr; exact absurd hr (by simp)
    · rw [if_neg hlt] at hr
      unfold CronJobs.applyCron at hr
      rw [hc] at hr
      dsimp only at hr
      injection hr with hr2
      injection hr2 with hr3
      rw [← hr3]
      omega

/-- Witness for the amended C4 theorem at a concrete schedule: with only
`endTime` set and `now` one day earlier, the returned instant respects the
boundary. -/
theorem c4_no_cron_respects_endTime_witness :
    toMs (⟨2024, 8, 8, 10, 0, 0⟩ : DateTime) ≤ toMs (⟨2024, 8, 9, 0, 0, 0⟩ : DateTime) :=
  c4_no_cron_respects_endTime demoCronNext 1 schedEndOnly ⟨2024, 8, 8, 10, 0, 0⟩
    ⟨2024, 8, 9, 0, 0, 0⟩ ⟨2024, 8, 8, 10, 0, 0⟩ rfl rfl (by decide)

/-- C10: `getNextExecutionTime` returns the JavaScript `null` (here
`some none`) exactly when `schedule.endTime` is present and the pre-cron
candidate exceeds it; in particular, whenever the schedule has no `endTime`
and the function terminates, it returns an instant. -/
theorem c10_null_only_past_endTime (cronNext : String → DateTime → DateTime)
    (fuel : Nat) (s : Schedule) (now : DateTime) :
    (s.endTime = none → ∀ r, CronJobs.getNextExecutionTime cronNext fuel s now = some r →
      r.isSome = true) ∧
    (CronJobs.getNextExecutionTime cronNext fuel s now = some none →
      ∃ e c, s.endTime = some e ∧ CronJobs.resolveCandidate fuel s now = some c ∧
        toMs e < toMs c) := by
  constructor
  · intro he r hr
    unfold CronJobs.getNextExecutionTime at hr
    rcases hcand : CronJobs.resolveCandidate fuel s now with _ | c
    · rw [hcand] at hr; exact absurd hr (by simp)
    · rw [hcand, he] at hr
      unfold CronJobs.applyCron at hr
      dsimp only at hr
      rcases hcron : s.cronExpression with _ | ex <;> rw [hcron] at hr <;>
        dsimp only at hr <;>
        · injection hr with hr2; rw [← hr2]; rfl
  · intro hr
    unfold CronJobs.getNextExecutionTime at hr
    rcases hcand : CronJobs.resolveCandidate fuel s now with _ | c
    · rw [hcand] at hr; exact absurd hr (by simp)
    · rw [hcand] at hr
      rcases hend : s.endTime with _ | e
      · rw [hend] at hr
        unfold CronJobs.applyCron at hr
        dsimp only at hr
        rcases hcron : s.cronExpression with _ | ex <;> rw [hcron] at hr <;> simp at hr
      · rw [hend] at hr
        dsimp only at hr
        by_cases hlt : toMs e < toMs c
        · exact ⟨e, c, rfl, rfl, hlt⟩
        · rw [if_neg hlt] at hr
          unfold CronJobs.applyCron at hr
          rcases hcron : s.cronExpression with _ | ex <;> rw [hcron] at hr <;> simp at hr

/-- Witness for C10 at a concrete schedule without `endTime`: the function
terminates and the theorem yields that its result is an instant. -/
theorem c10_null_only_past_endTime_witness :
    ∃ r, CronJobs.getNextExecutionTime demoCronNext 1 (onlyTime 2 0 0) now0 = some r ∧
      r.isSome = true := by
  refine ⟨some ⟨2024, 8, 10, 2, 0, 0⟩, rfl, ?_⟩
  exact (c10_null_only_past_endTime demoCronNext 1 (onlyTime 2 0 0) now0).1 rfl _ rfl

/-!
## Equivalence of the two source variants of the resolver
-/

theorem dowLoop_agrees (allowed : List Nat) (dayName : Nat) :
    ∀ fuel c, Legacy.dowLoop allowed dayName c fuel = CronJobs.dowLoop allowed dayName c fuel := by
  intro fuel
  induction fuel with
  | zero => intro c; rfl
  | succ n ih =>
    intro c
    unfold Legacy.dowLoop CronJobs.dowLoop
    by_cases hm : dayName ∈ allowed <;> simp [hm, ih]

theorem domLoop_agrees (allowed : List Nat) :
    ∀ fuel c, Legacy.domLoop allowed c fuel = CronJobs.domLoop allowed c fuel := by
  intro fuel
  induction fuel with
  | zero => intro c; rfl
  | succ n ih =>
    intro c
    unfold Legacy.domLoop CronJobs.domLoop
    by_cases hm : c.day ∈ allowed <;> simp [hm, ih]

theorem monthsLoop_agrees (allowed : List Nat) (monthName : Nat) :
    ∀ fuel c, Legacy.monthsLoop allowed monthName c fuel =
      CronJobs.monthsLoop allowed monthName c fuel := by
  intro fuel
  induction fuel with
  | zero => intro c; rfl
  | succ n ih =>
    intro c
    unfold Legacy.monthsLoop CronJobs.monthsLoop
    by_cases hm : monthName ∈ allowed <;> simp [hm, ih]

theorem resolveCandidate_agrees (fuel : Nat) (s : Schedule) (now : DateTime) :
    Legacy.resolveCandidate fuel s now = CronJobs.resolveCandidate fuel s now := by
  unfold Legacy.resolveCandidate CronJobs.resolveCandidate
  simp only [dowLoop_agrees, domLoop_agrees, monthsLoop_agrees]

/-- C9: the current resolver (src/index.js, lines 163–223) and the legacy
variant (unnamed source `part_001`, lines 122–182) compute the same result
on every `(schedule, now)` pair, for every fuel bound and every external
cron evaluator: the two translations agree loop by loop and step by step. -/
theorem c9_variants_agree (cronNext : String → DateTime → DateTime) (fuel : Nat)
    (s : Schedule) (now : DateTime) :
    Legacy.getNextExecutionTime cronNext fuel s now =
      CronJobs.getNextExecutionTime cronNext fuel s now := by
  unfold Legacy.getNextExecutionTime CronJobs.getNextExecutionTime
  rw [resolveCandidate_agrees]
  rcases CronJobs.resolveCandidate fuel s now with _ | c
  · rfl
  · rcases s.endTime with _ | e
    · simp [Legacy.applyCron, CronJobs.applyCron]
    · by_cases hlt : toMs e < toMs c <;>
        simp [hlt, Legacy.applyCron, CronJobs.applyCron]

/-!
## Lemmas about the table and timer primitives
-/

theorem getKey_filter_of_none (p : String × Nat → Bool) (x : String) :
    ∀ m : List (String × Nat), getKey m x = none → getKey (m.filter p) x = none := by
  intro m
  induction m with
  | nil => intro _; rfl
  | cons a t ih =>
    obtain ⟨k1, v1⟩ := a
    intro hm
    unfold getKey at hm
    by_cases hx : x = k1
    · rw [if_pos hx] at hm; exact absurd hm (by simp)
    · rw [if_neg hx] at hm
      rw [List.filter_cons]
      by_cases hp : p (k1, v1) = true
      · simp only [hp, if_true]
        unfold getKey
        rw [if_neg hx]
        exact ih hm
      · simp only [hp, if_false]
        exact ih hm

theorem getKey_delKey_self (x : String) :
    ∀ m : List (String × Nat), getKey (delKey m x) x = none := by
  intro m
  induction m with
  | nil => rfl
  | cons a t ih =>
    obtain ⟨k1, v1⟩ := a
    unfold delKey at *
    rw [List.filter_cons]
    by_cases h1 : k1 = x
    · subst h1
      simpa using ih
    · have hp : ((k1, v1).1 != x) = true := by simpa [bne_iff_ne] using h1
      simp only [hp, if_true]
      unfold getKey
      rw [if_neg (Ne.symm h1)]
      exact ih

theorem getKey_delKey_ne (x k : String) (hxk : x ≠ k) :
    ∀ m : List (String × Nat), getKey (delKey m k) x = getKey m x := by
  intro m
  induction m with
  | nil => rfl
  | cons a t ih =>
    obtain ⟨k1, v1⟩ := a
    unfold delKey at *
    rw [List.filter_cons]
    by_cases h1 : k1 = k
    · subst h1
      rw [if_neg (by simp : ¬(((k1, v1).1 != k1) = true))]
      rw [ih]
      have h2 : getKey ((k1, v1) :: t) x = if x = k1 then some v1 else getKey t x := rfl
      rw [h2, if_neg hxk]
    · rw [if_pos (by simpa [bne_iff_ne] using h1 : (((k1, v1).1 != k) = true))]
      have h2 : ∀ l : List (String × Nat),
          getKey ((k1, v1) :: l) x = if x = k1 then some v1 else getKey l x := fun _ => rfl
      rw [h2, h2]
      by_cases hx1 : x = k1
      · rw [if_pos hx1, if_pos hx1]
      · rw [if_neg hx1, if_neg hx1]
        exact ih

theorem getKey_setKey_ne (x k : String) (v : Nat) (hxk : x ≠ k)
    (m : List (String × Nat)) : getKey (setKey m k v) x = getKey m x := by
  have h1 : getKey (setKey m k v) x = if x = k then some v else getKey (delKey m k) x := rfl
  rw [h1, if_neg hxk, getKey_delKey_ne x k hxk m]

theorem mem_of_getKey_some (x : String) (v : Nat) :
    ∀ m : List (String × Nat), getKey m x = some v → (x, v) ∈ m := by
  intro m
  induction m with
  | nil => intro h; exact absurd h (by simp [getKey])
  | cons a t ih =>
    obtain ⟨k1, v1⟩ := a
    intro h
    unfold getKey at h
    by_cases hx : x = k1
    · rw [if_pos hx] at h
      injection h with h2
      subst hx; subst h2
      exact List.mem_cons_self _ _
    · rw [if_neg hx] at h
      exact List.mem_cons_of_mem _ (ih h)

theorem liveTimers_filter_ne (live : List (Nat × String)) (h : Nat) :
    ∀ t ∈ live.filter (fun t => t.1 != h), t.1 ≠ h := by
  intro t ht
  have := (List.mem_filter.mp ht).2
  simpa [bne_iff_ne] using this

theorem find?_none_of_all_ne (live : List (Nat × String)) (h : Nat)
    (hall : ∀ t ∈ live, t.1 ≠ h) :
    live.find? (fun t => t.1 == h) = none := by
  rw [List.find?_eq_none]
  intro t ht
  simp [hall t ht]

/-- A handle that is not pending cannot fire: `fireTimer` is a no-op on it
and executes nothing. -/
theorem fireTimer_noop (st : TimerState) (h : Nat)
    (hall : ∀ t ∈ st.liveTimers, t.1 ≠ h) :
    fireTimer st h = (st, none, false) := by
  unfold fireTimer
  rw [find?_none_of_all_ne st.liveTimers h hall]

theorem getKey_scheduleCronJob_ne (st : TimerState) (id x : String)
    (fa nw : Int) (hxk : x ≠ id) :
    getKey (scheduleCronJob st id fa nw).1.scheduledJobs x = getKey st.scheduledJobs x := by
  unfold scheduleCronJob
  by_cases hd : fa - nw ≤ 0
  · rw [if_pos hd]
  · rw [if_neg hd]
    exact getKey_setKey_ne x id st.nextHandle hxk st.scheduledJobs

theorem wf_scheduleCronJob (st : TimerState) (id : String) (fa nw : Int)
    (hwf : ∀ p ∈ st.scheduledJobs, p.2 < st.nextHandle) :
    ∀ p ∈ (scheduleCronJob st id fa nw).1.scheduledJobs,
      p.2 < (scheduleCronJob st id fa nw).1.nextHandle := by
  unfold scheduleCronJob
  by_cases hd : fa - nw ≤ 0
  · rw [if_pos hd]; exact hwf
  · rw [if_neg hd]
    dsimp only
    intro p hp
    rcases List.mem_cons.mp hp with h1 | h1
    · subst h1; simp
    · have := hwf p (List.mem_filter.mp h1).1
      omega

theorem dead_scheduleCronJob (st : TimerState) (id : String) (fa nw : Int) (h : Nat)
    (hlt : h < st.nextHandle) (hall : ∀ t ∈ st.liveTimers, t.1 ≠ h) :
    h < (scheduleCronJob st id fa nw).1.nextHandle ∧
    ∀ t ∈ (scheduleCronJob st id fa nw).1.liveTimers, t.1 ≠ h := by
  unfold scheduleCronJob
  by_cases hd : fa - nw ≤ 0
  · rw [if_pos hd]; exact ⟨hlt, hall⟩
  · rw [if_neg hd]
    refine ⟨by simpa using Nat.lt_succ_of_lt hlt, ?_⟩
    intro t ht
    rcases List.mem_cons.mp ht with h1 | h1
    · subst h1; simpa using Nat.ne_of_gt hlt
    · exact hall t h1

theorem handleCrudLoop_keeps_key_clear (cronNext : String → DateTime → DateTime)
    (fuel : Nat) (method : String) (now : DateTime) (x : String) :
    ∀ (recs : List CrudRecord) (st st' : TimerState) (out : List CrudRecord)
      (res sch : List String),
      handleCrudLoop cronNext fuel method now recs st = some (st', out, res, sch) →
      (∀ rr ∈ recs, rr._id ≠ x) →
      getKey st.scheduledJobs x = none →
      getKey st'.scheduledJobs x = none ∧ x ∉ res ∧ x ∉ sch := by
  intro recs
  induction recs with
  | nil =>
    intro st st' out res sch hrun _ hx
    unfold handleCrudLoop at hrun
    simp only [Option.some.injEq, Prod.mk.injEq] at hrun
    obtain ⟨h1, _, h3, h4⟩ := hrun
    subst h1; subst h3; subst h4
    exact ⟨hx, by simp, by simp⟩
  | cons r rest ih =>
    intro st st' out res sch hrun hids hx
    have hrx : x ≠ r._id := fun he => (hids r (List.mem_cons_self r rest)) he.symm
    have hrest : ∀ rr ∈ rest, rr._id ≠ x := fun rr hrr => hids rr (List.mem_cons_of_mem r hrr)
    unfold handleCrudLoop at hrun
    by_cases hdel : method = "object.delete" ∨ r.active = some false
    · rw [if_pos hdel] at hrun
      rcases hk : getKey st.scheduledJobs r._id with _ | hdl
      · rw [hk] at hrun
        dsimp only at hrun
        exact ih st st' out res sch hrun hrest hx
      · rw [hk] at hrun
        dsimp only at hrun
        refine ih _ st' out res sch hrun hrest ?_
        dsimp only
        rw [getKey_delKey_ne x r._id hrx st.scheduledJobs]
        exact hx
    · rw [if_neg hdel] at hrun
      rcases hres : CronJobs.getNextExecutionTime cronNext fuel r.schedule now
        with _ | (_ | t)
      · rw [hres] at hrun
        exact absurd hrun (by simp)
      · rw [hres] at hrun
        dsimp only at hrun
        rcases hrec : handleCrudLoop cronNext fuel method now rest st with _ | tup
        · rw [hrec] at hrun
          exact absurd hrun (by simp)
        · obtain ⟨st2, recs2, res2, sch2⟩ := tup
          rw [hrec] at hrun
          dsimp only at hrun
          simp only [Option.some.injEq, Prod.mk.injEq] at hrun
          obtain ⟨h1, _, h3, h4⟩ := hrun
          subst h1; subst h3; subst h4
          obtain ⟨ha, hb, hc⟩ := ih st st2 recs2 res2 sch2 hrec hrest hx
          exact ⟨ha, by simp [List.mem_cons, hrx, hb], hc⟩
      · rw [hres] at hrun
        dsimp only at hrun
        by_cases harm : (getKey st.scheduledJobs r._id).isSome
        · rw [if_pos harm] at hrun
          rcases hrec : handleCrudLoop cronNext fuel method now rest st with _ | tup
          · rw [hrec] at hrun
            exact absurd hrun (by simp)
          · obtain ⟨st2, recs2, res2, sch2⟩ := tup
            rw [hrec] at hrun
            dsimp only at hrun
            simp only [Option.some.injEq, Prod.mk.injEq] at hrun
            obtain ⟨h1, _, h3, h4⟩ := hrun
            subst h1; subst h3; subst h4
            obtain ⟨ha, hb, hc⟩ := ih st st2 recs2 res2 sch2 hrec hrest hx
            exact ⟨ha, by simp [List.mem_cons, hrx, hb], hc⟩
        · rw [if_neg harm] at hrun
          by_cases hwin : (toMs t : Int) - (toMs now : Int) ≤ 5 * 60 * 1000 ∧
              0 < (toMs t : Int) - (toMs now : Int)
          · rw [if_pos hwin] at hrun
            rcases hrec : handleCrudLoop cronNext fuel method now rest
                (scheduleCronJob st r._id (toMs t) (toMs now)).1 with _ | tup
            · rw [hrec] at hrun
              exact absurd hrun (by simp)
            · obtain ⟨st2, recs2, res2, sch2⟩ := tup
              rw [hrec] at hrun
              dsimp only at hrun
              simp only [Option.some.injEq, Prod.mk.injEq] at hrun
              obtain ⟨h1, _, h3, h4⟩ := hrun
              subst h1; subst h3; subst h4
              have hx1 : getKey (scheduleCronJob st r._id (toMs t) (toMs now)).1.scheduledJobs x
                  = none := by
                rw [getKey_scheduleCronJob_ne st r._id x _ _ hrx]; exact hx
              obtain ⟨ha, hb, hc⟩ := ih _ st2 recs2 res2 sch2 hrec hrest hx1
              exact ⟨ha, by simp [List.mem_cons, hrx, hb], by simp [List.mem_cons, hrx, hc]⟩
          · rw [if_neg hwin] at hrun
            rcases hrec : handleCrudLoop cronNext fuel method now rest st with _ | tup
            · rw [hrec] at hrun
              exact absurd hrun (by simp)
            · obtain ⟨st2, recs2, res2, sch2⟩ := tup
              rw [hrec] at hrun
              dsimp only at hrun
              simp only [Option.some.injEq, Prod.mk.injEq] at hrun
              obtain ⟨h1, _, h3, h4⟩ := hrun
              subst h1; subst h3; subst h4
              obtain ⟨ha, hb, hc⟩ := ih st st2 recs2 res2 sch2 hrec hrest hx
              exact ⟨ha, by simp [List.mem_cons, hrx, hb], hc⟩

theorem handleCrudLoop_keeps_handle_dead (cronNext : String → DateTime → DateTime)
    (fuel : Nat) (method : String) (now : DateTime) (h : Nat) :
    ∀ (recs : List CrudRecord) (st st' : TimerState) (out : List CrudRecord)
      (res sch : List String),
      handleCrudLoop cronNext fuel method now recs st = some (st', out, res, sch) →
      h < st.nextHandle →
      (∀ t ∈ st.liveTimers, t.1 ≠ h) →
      h < st'.nextHandle ∧ ∀ t ∈ st'.liveTimers, t.1 ≠ h := by
  intro recs
  induction recs with
  | nil =>
    intro st st' out res sch hrun hlt hall
    unfold handleCrudLoop at hrun
    simp only [Option.some.injEq, Prod.mk.injEq] at hrun
    obtain ⟨h1, _, _, _⟩ := hrun
    subst h1
    exact ⟨hlt, hall⟩
  | cons r rest ih =>
    intro st st' out res sch hrun hlt hall
    unfold handleCrudLoop at hrun
    by_cases hdel : method = "object.delete" ∨ r.active = some false
    · rw [if_pos hdel] at hrun
      rcases hk : getKey st.scheduledJobs r._id with _ | hdl
      · rw [hk] at hrun
        dsimp only at hrun
        exact ih st st' out res sch hrun hlt hall
      · rw [hk] at hrun
        dsimp only at hrun
        refine ih _ st' out res sch hrun hlt ?_
        intro t ht
        exact hall t (List.mem_filter.mp ht).1
    · rw [if_neg hdel] at hrun
      rcases hres : CronJobs.getNextExecutionTime cronNext fuel r.schedule now
        with _ | (_ | t)
      · rw [hres] at hrun
        exact absurd hrun (by simp)
      · rw [hres] at hrun
        dsimp only at hrun
        rcases hrec : handleCrudLoop cronNext fuel method now rest st with _ | tup
        · rw [hrec] at hrun
          exact absurd hrun (by simp)
        · obtain ⟨st2, recs2, res2, sch2⟩ := tup
          rw [hrec] at hrun
          dsimp only at hrun
          simp only [Option.some.injEq, Prod.mk.injEq] at hrun
          obtain ⟨h1, _, _, _⟩ := hrun
          subst h1
          exact ih st st2 recs2 res2 sch2 hrec hlt hall
      · rw [hres] at hrun
        dsimp only at hrun
        by_cases harm : (getKey st.scheduledJobs r._id).isSome
        · rw [if_pos harm] at hrun
          rcases hrec : handleCrudLoop cronNext fuel method now rest st with _ | tup
          · rw [hrec] at hrun
            exact absurd hrun (by simp)
          · obtain ⟨st2, recs2, res2, sch2⟩ := tup
            rw [hrec] at hrun
            dsimp only at hrun
            simp only [Option.some.injEq, Prod.mk.injEq] at hrun
            obtain ⟨h1, _, _, _⟩ := hrun
            subst h1
            exact ih st st2 recs2 res2 sch2 hrec hlt hall
        · rw [if_neg harm] at hrun
          by_cases hwin : (toMs t : Int) - (toMs now : Int) ≤ 5 * 60 * 1000 ∧
              0 < (toMs t : Int) - (toMs now : Int)
          · rw [if_pos hwin] at hrun
            rcases hrec : handleCrudLoop cronNext fuel method now rest
                (scheduleCronJob st r._id (toMs t) (toMs now)).1 with _ | tup
            · rw [hrec] at hrun
              exact absurd hrun (by simp)
            · obtain ⟨st2, recs2, res2, sch2⟩ := tup
              rw [hrec] at hrun
              dsimp only at hrun
              simp only [Option.some.injEq, Prod.mk.injEq] at hrun
              obtain ⟨h1, _, _, _⟩ := hrun
              subst h1
              obtain ⟨hlt1, hall1⟩ :=
                dead_scheduleCronJob st r._id (toMs t) (toMs now) h hlt hall
              exact ih _ st2 recs2 res2 sch2 hrec hlt1 hall1
          · rw [if_neg hwin] at hrun
            rcases hrec : handleCrudLoop cronNext fuel method now rest st with _ | tup
            · rw [hrec] at hrun
              exact absurd hrun (by simp)
            · obtain ⟨st2, recs2, res2, sch2⟩ := tup
              rw [hrec] at hrun
              dsimp only at hrun
              simp only [Option.some.injEq, Prod.mk.injEq] at hrun
              obtain ⟨h1, _, _, _⟩ := hrun
              subst h1
              exact ih st st2 recs2 res2 sch2 hrec hlt hall

theorem handleCrudLoop_delete_spec (cronNext : String → DateTime → DateTime)
    (fuel : Nat) (method : String) (now : DateTime) (r : CrudRecord)
    (hdel : method = "object.delete" ∨ r.active = some false) :
    ∀ (recs : List CrudRecord) (st st' : TimerState) (out : List CrudRecord)
      (res sch : List String),
      handleCrudLoop cronNext fuel method now recs st = some (st', out, res, sch) →
      r ∈ recs →
      (recs.map (fun rr => rr._id)).Nodup →
      (∀ p ∈ st.scheduledJobs, p.2 < st.nextHandle) →
      getKey st'.scheduledJobs r._id = none ∧ r._id ∉ res ∧ r._id ∉ sch ∧
      ∀ hdl, getKey st.scheduledJobs r._id = some hdl →
        ∀ t ∈ st'.liveTimers, t.1 ≠ hdl := by
  intro recs
  induction recs with
  | nil =>
    intro st st' out res sch _ hmem
    exact absurd hmem (by simp)
  | cons a rest ih =>
    intro st st' out res sch hrun hmem hnd hwf
    have hnd2 : (rest.map (fun rr => rr._id)).Nodup := (List.nodup_cons.mp hnd).2
    have hha : a._id ∉ rest.map (fun rr => rr._id) := (List.nodup_cons.mp hnd).1
    rcases List.mem_cons.mp hmem with heq | hmem2
    · subst heq
      unfold handleCrudLoop at hrun
      rw [if_pos hdel] at hrun
      have hidsrest : ∀ rr ∈ rest, rr._id ≠ r._id := by
        intro rr hrr he
        exact hha (he ▸ List.mem_map_of_mem (fun rr => rr._id) hrr)
      rcases hk : getKey st.scheduledJobs r._id with _ | hdl
      · rw [hk] at hrun
        dsimp only at hrun
        obtain ⟨ha2, hb2, hc2⟩ := handleCrudLoop_keeps_key_clear cronNext fuel method now
          r._id rest st st' out res sch hrun hidsrest hk
        refine ⟨ha2, hb2, hc2, ?_⟩
        intro hdl2 hk2
        exact absurd hk2 (by simp)
      · rw [hk] at hrun
        dsimp only at hrun
        have hx1 : getKey (delKey st.scheduledJobs r._id) r._id = none :=
          getKey_delKey_self r._id st.scheduledJobs
        obtain ⟨ha2, hb2, hc2⟩ := handleCrudLoop_keeps_key_clear cronNext fuel method now
          r._id rest _ st' out res sch hrun hidsrest hx1
        refine ⟨ha2, hb2, hc2, ?_⟩
        intro hdl2 hk2
        injection hk2 with hk3
        subst hk3
        have hlt : hdl < st.nextHandle :=
          hwf (r._id, hdl) (mem_of_getKey_some r._id hdl st.scheduledJobs hk)
        have hdead : ∀ t ∈ st.liveTimers.filter (fun t => t.1 != hdl), t.1 ≠ hdl :=
          liveTimers_filter_ne st.liveTimers hdl
        exact (handleCrudLoop_keeps_handle_dead cronNext fuel method now hdl
          rest _ st' out res sch hrun hlt hdead).2
    · have har : a._id ≠ r._id := by
        intro he
        exact hha (he ▸ List.mem_map_of_mem (fun rr => rr._id) hmem2)
      unfold handleCrudLoop at hrun
      by_cases hdelA : method = "object.delete" ∨ a.active = some false
      · rw [if_pos hdelA] at hrun
        rcases hk : getKey st.scheduledJobs a._id with _ | hdl
        · rw [hk] at hrun
          dsimp only at hrun
          exact ih st st' out res sch hrun hmem2 hnd2 hwf
        · rw [hk] at hrun
          dsimp only at hrun
          have hwf1 : ∀ p ∈ delKey st.scheduledJobs a._id, p.2 < st.nextHandle :=
            fun p hp => hwf p (List.mem_filter.mp hp).1
          obtain ⟨ha2, hb2, hc2, hd2⟩ := ih _ st' out res sch hrun hmem2 hnd2 hwf1
          refine ⟨ha2, hb2, hc2, ?_⟩
          intro hdl2 hk2
          refine hd2 hdl2 ?_
          show getKey (delKey st.scheduledJobs a._id) r._id = some hdl2
          rw [getKey_delKey_ne r._id a._id (Ne.symm har) st.scheduledJobs]
          exact hk2
      · rw [if_neg hdelA] at hrun
        rcases hres : CronJobs.getNextExecutionTime cronNext fuel a.schedule now
          with _ | (_ | t)
        · rw [hres] at hrun
          exact absurd hrun (by simp)
        · rw [hres] at hrun
          dsimp only at hrun
          rcases hrec : handleCrudLoop cronNext fuel method now rest st with _ | tup
          · rw [hrec] at hrun
            exact absurd hrun (by simp)
          · obtain ⟨st2, recs2, res2, sch2⟩ := tup
            rw [hrec] at hrun
            dsimp only at hrun
            simp only [Option.some.injEq, Prod.mk.injEq] at hrun
            obtain ⟨h1, _, h3, h4⟩ := hrun
            subst h1; subst h3; subst h4
            obtain ⟨ha2, hb2, hc2, hd2⟩ := ih st st2 recs2 res2 sch2 hrec hmem2 hnd2 hwf
            refine ⟨ha2, ?_, hc2, hd2⟩
            simp only [List.mem_cons, not_or]
            exact ⟨fun he => har he.symm, hb2⟩
        · rw [hres] at hrun
          dsimp only at hrun
          by_cases harm : (getKey st.scheduledJobs a._id).isSome
          · rw [if_pos harm] at hrun
            rcases hrec : handleCrudLoop cronNext fuel method now rest st with _ | tup
            · rw [hrec] at hrun
              exact absurd hrun (by simp)
            · obtain ⟨st2, recs2, res2, sch2⟩ := tup
              rw [hrec] at hrun
              dsimp only at hrun
              simp only [Option.some.injEq, Prod.mk.injEq] at hrun
              obtain ⟨h1, _, h3, h4⟩ := hrun
              subst h1; subst h3; subst h4
              obtain ⟨ha2, hb2, hc2, hd2⟩ := ih st st2 recs2 res2 sch2 hrec hmem2 hnd2 hwf
              refine ⟨ha2, ?_, hc2, hd2⟩
              simp only [List.mem_cons, not_or]
              exact ⟨fun he => har he.symm, hb2⟩
          · rw [if_neg harm] at hrun
            by_cases hwin : (toMs t : Int) - (toMs now : Int) ≤ 5 * 60 * 1000 ∧
                0 < (toMs t : Int) - (toMs now : Int)
            · rw [if_pos hwin] at hrun
              rcases hrec : handleCrudLoop cronNext fuel method now rest
                  (scheduleCronJob st a._id (toMs t) (toMs now)).1 with _ | tup
              · rw [hrec] at hrun
                exact absurd hrun (by simp)
              · obtain ⟨st2, recs2, res2, sch2⟩ := tup
                rw [hrec] at hrun
                dsimp only at hrun
                simp only [Option.some.injEq, Prod.mk.injEq] at hrun
                obtain ⟨h1, _, h3, h4⟩ := hrun
                subst h1; subst h3; subst h4
                have hwf1 := wf_scheduleCronJob st a._id (toMs t) (toMs now) hwf
                obtain ⟨ha2, hb2, hc2, hd2⟩ := ih _ st2 recs2 res2 sch2 hrec hmem2 hnd2 hwf1
                refine ⟨ha2, ?_, ?_, ?_⟩
                · simp only [List.mem_cons, not_or]
                  exact ⟨fun he => har he.symm, hb2⟩
                · simp only [List.mem_cons, not_or]
                  exact ⟨fun he => har he.symm, hc2⟩
                · intro hdl2 hk2
                  refine hd2 hdl2 ?_
                  rw [getKey_scheduleCronJob_ne st a._id r._id (toMs t) (toMs now)
                    (Ne.symm har)]
                  exact hk2
            · rw [if_neg hwin] at hrun
              rcases hrec : handleCrudLoop cronNext fuel method now rest st with _ | tup
              · rw [hrec] at hrun
                exact absurd hrun (by simp)
              · obtain ⟨st2, recs2, res2, sch2⟩ := tup
                rw [hrec] at hrun
                dsimp only at hrun
                simp only [Option.some.injEq, Prod.mk.injEq] at hrun
                obtain ⟨h1, _, h3, h4⟩ := hrun
                subst h1; subst h3; subst h4
                obtain ⟨ha2, hb2, hc2, hd2⟩ := ih st st2 recs2 res2 sch2 hrec hmem2 hnd2 hwf
                refine ⟨ha2, ?_, hc2, hd2⟩
                simp only [List.mem_cons, not_or]
                exact ⟨fun he => har he.symm, hb2⟩

/-- C7: in a `cron-job` notification batch, every record that is deleted
(`method = 'object.delete'`) or has `active === false` is handled by the
splice branch of `handleCrudEvent` (src/index.js lines 116–129): its timeout
is cleared and its table entry deleted, `getNextExecutionTime` is never
invoked for it (so the disarm happens before any resolution attempt), it is
never handed to `scheduleCronJob`, and its cancelled timer can no longer
fire — `fireTimer` on its old handle is a no-op that executes nothing, even
if the fire time has already arrived. -/
theorem c7_delete_disarms_before_resolution (cronNext : String → DateTime → DateTime)
    (fuel : Nat) (ev : CrudEvent) (now : DateTime) (st st' : TimerState)
    (out : List CrudRecord) (res sch : List String) (r : CrudRecord)
    (hArr : ev.array = "cron-job")
    (hNodup : (ev.object.map (fun rr => rr._id)).Nodup)
    (hWF : ∀ p ∈ st.scheduledJobs, p.2 < st.nextHandle)
    (hr : r ∈ ev.object)
    (hDel : ev.method = "object.delete" ∨ r.active = some false)
    (hRun : handleCrudEvent cronNext fuel ev now st = some (st', out, res, sch)) :
    r._id ∉ res ∧ r._id ∉ sch ∧ getKey st'.scheduledJobs r._id = none ∧
    ∀ hdl, getKey st.scheduledJobs r._id = some hdl →
      fireTimer st' hdl = (st', none, false) := by
  unfold handleCrudEvent at hRun
  rw [if_neg (by simp [hArr])] at hRun
  obtain ⟨ha2, hb2, hc2, hd2⟩ := handleCrudLoop_delete_spec cronNext fuel ev.method now r
    hDel ev.object st st' out res sch hRun hr hNodup hWF
  refine ⟨hb2, hc2, ha2, ?_⟩
  intro hdl hk
  exact fireTimer_noop st' hdl (hd2 hdl hk)

/-- A record deactivated by the notification being processed. -/
def rInactive : CrudRecord := { _id := "a", active := some false }

/-- An update notification on the `cron-job` array deactivating `rInactive`. -/
def evDeact : CrudEvent :=
  { array := "cron-job", method := "object.update", object := [rInactive] }

/-- A state in which job `"a"` is armed with handle 0. -/
def stArmedA : TimerState := (scheduleCronJob stEmpty "a" 1000 0).1

/-- Witness for C7 at a concrete input: deactivating the armed job `"a"`
clears its table entry and its pending timeout, attempts no resolution for
it, and firing its old handle afterwards is a no-op. -/
theorem c7_delete_disarms_before_resolution_witness :
    "a" ∉ ([] : List String) ∧ "a" ∉ ([] : List String) ∧
    getKey (⟨[], [], 1⟩ : TimerState).scheduledJobs "a" = none ∧
    ∀ hdl, getKey stArmedA.scheduledJobs "a" = some hdl →
      fireTimer (⟨[], [], 1⟩ : TimerState) hdl = (⟨[], [], 1⟩, none, false) :=
  c7_delete_disarms_before_resolution demoCronNext 1 evDeact now0 stArmedA ⟨[], [], 1⟩
    [] [] [] rInactive rfl (by decide) (by decide) (by simp [evDeact])
    (Or.inr rfl) (by rfl)
